import Mathlib

/-!
Verification of the retrieval, chunking, query-preprocessing and confidence
components of the polish-legal-assistant repository.

Shallow embedding conventions:
* Similarity scores and the confidence value are embedded as rationals (`ℚ`);
  the Python code computes with floats, and the numeric literals 0.65, 0.50,
  0.6, 0.2, 0.8 of the source appear here as the exact rationals they denote.
* The Pinecone index, the OpenAI embedding call and the query preprocessing
  that feed `RetrievalService.retrieve_documents` are external effects; they
  are modelled by an environment function `idx : ℕ → Option String → Except RErr (List PMatch)`
  mapping the `top_k` argument and the optional category filter to either the
  index's match list or a raised exception.  A `configured` flag models
  whether the Pinecone client and index are available; when it is false,
  `retrieve_documents` raises `ValueError` before any retrieval attempt,
  modelled by `Except.error RErr.configError`.
* Python exceptions are modelled with `Except`; a function that the Python
  code guarantees not to raise is embedded as a total function returning a
  plain value.
* The tokenizer `tiktoken` used by the chunker is external; the chunker
  embedding is parameterised by an arbitrary token-count function
  `tok : String → ℕ`.
-/

/-- Metadata stored with a Pinecone match.  Each field is optional: the
Python code reads fields out of the metadata dict with `metadata.get`. -/
structure DocMeta where
  title : Option String
  content : Option String
  organization : Option String
  url : Option String
  category : Option String
  lastVerified : Option String
deriving Repr, DecidableEq

/-- The empty metadata dict `{}` used by `match.metadata or {}`. -/
def emptyMeta : DocMeta := ⟨none, none, none, none, none, none⟩

/-- A match returned by the Pinecone index: id, similarity score, and an
optional metadata dict (`match.metadata` may be `None`). -/
structure PMatch where
  id : String
  score : ℚ
  metadata : Option DocMeta
deriving Repr, DecidableEq

/-- A retrieved document as built by `RetrievalService.retrieve_documents`
(retrieval_service.py lines 200-209). -/
structure RetrievedDoc where
  id : String
  score : ℚ
  title : String
  content : String
  organization : String
  url : Option String
  category : Option String
  lastVerified : Option String
deriving Repr, DecidableEq

/-- Embeds the document dict construction of `retrieve_documents`:
`metadata = match.metadata or {}` followed by `metadata.get` calls with
their defaults (retrieval_service.py lines 198-209). -/
def toDoc (m : PMatch) : RetrievedDoc :=
  let md := m.metadata.getD emptyMeta
  { id := m.id
    score := m.score
    title := md.title.getD "Unknown"
    content := md.content.getD ""
    organization := md.organization.getD "Unknown"
    url := md.url
    category := md.category
    lastVerified := md.lastVerified }

/-- Insert a document into a list sorted by descending score, after all
already-present documents of greater or equal score. -/
def insertDesc (d : RetrievedDoc) : List RetrievedDoc → List RetrievedDoc
  | [] => [d]
  | x :: xs => if x.score ≤ d.score then d :: x :: xs else x :: insertDesc d xs

/-- Embeds `RetrievalService._rerank_documents` (retrieval_service.py lines
290-323): `sorted(documents, key=lambda x: x["score"], reverse=True)`.
Python's `sorted` is a stable sort and `reverse=True` keeps elements with
equal keys in their original order; a stable sort is extensionally unique,
so this insertion sort computes the same list. -/
def rerankDocuments : List RetrievedDoc → List RetrievedDoc
  | [] => []
  | d :: ds => insertDesc d (rerankDocuments ds)

/-- The filtering and document construction of `retrieve_documents`
(lines 188-211): matches with `score < threshold` are skipped, the rest are
turned into document dicts in index order. -/
def processMatches (threshold : ℚ) (ms : List PMatch) : List RetrievedDoc :=
  (ms.filter (fun m => !(m.score < threshold))).map toDoc

/-- The pure part of `retrieve_documents`: filter by threshold, build
documents, rerank (lines 188-218). -/
def retrieveDocumentsPure (threshold : ℚ) (ms : List PMatch) : List RetrievedDoc :=
  rerankDocuments (processMatches threshold ms)

/-- Exceptions raised inside retrieval: `configError` stands for the
`ValueError` raised when Pinecone/OpenAI are not configured
(retrieval_service.py lines 151-156), `queryError` for any other exception
raised by embedding generation or the index query. -/
inductive RErr where
  | configError
  | queryError
deriving Repr, DecidableEq

/-- Embeds `RetrievalService.retrieve_documents` (lines 125-222): the
configuration check runs before any retrieval attempt and raises
`ValueError` when Pinecone is not configured; otherwise the index is
queried with `top_k` and the category filter, and the resulting matches go
through threshold filtering and reranking.  Exceptions from the index or
the embedding call propagate (`raise` at line 222). -/
def retrieveDocuments (configured : Bool)
    (idx : ℕ → Option String → Except RErr (List PMatch))
    (topK : ℕ) (cat : Option String) (minScore : ℚ) :
    Except RErr (List RetrievedDoc) :=
  if configured = false then .error .configError
  else
    match idx topK cat with
    | .error e => .error e
    | .ok ms => .ok (retrieveDocumentsPure minScore ms)

/-- `settings.rag_tier1_threshold` default 0.65 (config.py lines 95-100). -/
def ragTier1Threshold : ℚ := mkRat 65 100

/-- `settings.rag_tier1_top_k` default 5 (config.py lines 101-106). -/
def ragTier1TopK : ℕ := 5

/-- `settings.rag_tier2_threshold` default 0.50 (config.py lines 107-112). -/
def ragTier2Threshold : ℚ := mkRat 50 100

/-- `settings.rag_tier2_top_k` default 15 (config.py lines 113-118). -/
def ragTier2TopK : ℕ := 15

/-- The tier-2 half of `retrieve_with_fallback` (retrieval_service.py lines
270-288): relaxed retrieval; a non-empty result is returned as
`(docs, "tier2")`, an empty result or any exception yields
`([], "no_context")`. -/
def fallbackTier2 (configured : Bool)
    (idx : ℕ → Option String → Except RErr (List PMatch))
    (cat : Option String) : List RetrievedDoc × String :=
  match retrieveDocuments configured idx ragTier2TopK cat ragTier2Threshold with
  | .ok ds => if ds.isEmpty then ([], "no_context") else (ds, "tier2")
  | .error _ => ([], "no_context")

/-- Embeds `RetrievalService.retrieve_with_fallback` (lines 224-288).
Tier 1 runs with `rag_tier1_top_k` and `rag_tier1_threshold`; its result is
used only when it has at least 2 documents.  Any exception from tier 1 —
including the configuration `ValueError` — is caught by the
`except Exception` handler and control falls through to tier 2. -/
def retrieveWithFallback (configured : Bool)
    (idx : ℕ → Option String → Except RErr (List PMatch))
    (cat : Option String) : List RetrievedDoc × String :=
  match retrieveDocuments configured idx ragTier1TopK cat ragTier1Threshold with
  | .ok ds => if 2 ≤ ds.length then (ds, "tier1") else fallbackTier2 configured idx cat
  | .error _ => fallbackTier2 configured idx cat

/-- Python's `round(x, 3)` on the confidence value, embedded over ℚ as
round-to-nearest of `x * 1000` (ties at half-thousandths are immaterial to
the claims checked here). -/
def round3 (q : ℚ) : ℚ := ((round (q * 1000) : ℤ) : ℚ) / 1000

/-- Embeds `RAGService._calculate_confidence` (rag_service.py lines
189-225).  `finishReason` is `llm_metadata.get("finish_reason", "")`. -/
def calculateConfidence (docs : List RetrievedDoc) (finishReason : String) : ℚ :=
  if docs.isEmpty then 0
  else
    let avgScore := (docs.map (fun d => d.score)).sum / (docs.length : ℚ)
    let numDocsFactor := min ((docs.length : ℚ) / 5) 1
    let completenessFactor : ℚ := if finishReason = "stop" then 1 else 8 / 10
    round3 (min (avgScore * (6 / 10) + numDocsFactor * (2 / 10) + completenessFactor * (2 / 10)) 1)

/-- The whitespace class `\s` of Python's `re`, restricted to its ASCII
members (the inputs considered here contain no non-ASCII whitespace). -/
def isWSpy (c : Char) : Bool :=
  c = ' ' || c = '\t' || c = '\n' || c = '\r' || c = '\x0b' || c = '\x0c'

/-- The uppercase Polish letters occurring in this application's texts,
with their lowercase forms; used to model Python's Unicode-aware
case-insensitive matching and `\w` class on the relevant alphabet. -/
def polishUpper : List (Char × Char) :=
  [('Ą', 'ą'), ('Ć', 'ć'), ('Ę', 'ę'), ('Ł', 'ł'), ('Ń', 'ń'),
   ('Ó', 'ó'), ('Ś', 'ś'), ('Ź', 'ź'), ('Ż', 'ż')]

/-- Case folding used for `re.IGNORECASE`: ASCII plus Polish letters. -/
def toLowerPy (c : Char) : Char :=
  match (polishUpper.find? (fun p => p.1 = c)) with
  | some p => p.2
  | none => c.toLower

/-- The word class `\w` of Python's `re` on the alphabet in use: ASCII
alphanumerics, underscore, and Polish letters. -/
def isWordPy (c : Char) : Bool :=
  c.isAlphanum || c = '_' ||
    (polishUpper.any (fun p => p.1 = c || p.2 = c))

/-- `\w`-ness of the character before/after a match position; the virtual
position beyond either end of the string counts as non-word. -/
def isWordOpt : Option Char → Bool
  | none => false
  | some c => isWordPy c

/-- Case-insensitive comparison of a pattern against the head of a text. -/
def ciMatches : List Char → List Char → Bool
  | [], _ => true
  | _ :: _, [] => false
  | p :: ps, c :: cs => (toLowerPy c = toLowerPy p) && ciMatches ps cs

/-- Does the regex `\b<pat>\b` (with `re.IGNORECASE`) match at the head of
`l`, where `prev` is the character just before this position in the
original string?  `\b` holds between two positions iff exactly one side is
a word character. -/
def wbMatchAt (pat : List Char) (prev : Option Char) (l : List Char) : Bool :=
  match pat, l with
  | _ :: _, c1 :: _ =>
    ciMatches pat l &&
    (isWordOpt prev != isWordPy c1) &&
    (match (l.take pat.length).getLast? with
     | some lastC => isWordPy lastC != isWordOpt (l.drop pat.length).head?
     | none => false)
  | _, _ => false

/-- One `re.sub(r'\b' + re.escape(abbr) + r'\b', full_form, text, flags=re.IGNORECASE)`
pass (query_preprocessing.py lines 122-126).  Scanning is left to right and
resumes after each replaced occurrence; the skip counter consumes the
matched characters of the original text, and `prev` tracks the original
character preceding the scan position (word boundaries are judged on the
original text, as `re.sub` does). -/
def replGo (pat rep : List Char) : ℕ → Option Char → List Char → List Char
  | _, _, [] => []
  | k + 1, p, _ :: rest => replGo pat rep k p rest
  | 0, p, c :: rest =>
    if wbMatchAt pat p (c :: rest) then
      rep ++ replGo pat rep (pat.length - 1) (((c :: rest).take pat.length).getLast?) rest
    else
      c :: replGo pat rep 0 (some c) rest

/-- Replace every `\b`-delimited, case-insensitive occurrence of `pat`. -/
def replWB (pat rep : List Char) (l : List Char) : List Char :=
  replGo pat rep 0 none l

/-- `POLISH_ABBREVIATIONS` (query_preprocessing.py lines 13-56), in source
(= dict insertion) order. -/
def POLISH_ABBREVIATIONS : List (String × String) :=
  [("np.", "na przykład"),
   ("tj.", "to jest"),
   ("tzn.", "to znaczy"),
   ("itp.", "i tak podobnie"),
   ("itd.", "i tak dalej"),
   ("m.in.", "między innymi"),
   ("zł", "złotych"),
   ("PLN", "złotych polskich"),
   ("tys.", "tysięcy"),
   ("mln", "milionów"),
   ("mld", "miliardów"),
   ("dr", "doktor"),
   ("prof.", "profesor"),
   ("mgr", "magister"),
   ("inż.", "inżynier"),
   ("ul.", "ulica"),
   ("al.", "aleja"),
   ("pl.", "plac"),
   ("godz.", "godzina"),
   ("min.", "minut"),
   ("sek.", "sekund"),
   ("r.", "roku"),
   ("nr", "numer"),
   ("art.", "artykuł"),
   ("ust.", "ustęp"),
   ("pkt", "punkt"),
   ("lit.", "litera"),
   ("par.", "paragraf"),
   ("str.", "strona"),
   ("ww.", "wyżej wymieniony"),
   ("wg", "według"),
   ("dot.", "dotyczący"),
   ("zob.", "zobacz"),
   ("por.", "porównaj"),
   ("tzw.", "tak zwany"),
   ("ok.", "około"),
   ("max", "maksymalnie"),
   ("min", "minimalnie"),
   ("śr.", "średnio"),
   ("temp.", "temperatura"),
   ("proc.", "procent"),
   ("%", "procent")]

/-- `QueryPreprocessor._expand_abbreviations` (lines 112-128): one
word-boundary substitution pass per abbreviation, in source order. -/
def expandAbbreviations (l : List Char) : List Char :=
  POLISH_ABBREVIATIONS.foldl (fun acc ab => replWB ab.1.toList ab.2.toList acc) l

/-- `re.sub(r'\s+', ' ', text)`: every maximal whitespace run becomes one
space.  The flag records whether the previous character was whitespace. -/
def collapseGo : Bool → List Char → List Char
  | _, [] => []
  | prevWS, c :: rest =>
    if isWSpy c then
      if prevWS then collapseGo true rest else ' ' :: collapseGo true rest
    else c :: collapseGo false rest

/-- Python's `str.strip()`: drop leading and trailing whitespace. -/
def pyStrip (l : List Char) : List Char :=
  ((l.dropWhile isWSpy).reverse.dropWhile isWSpy).reverse

/-- `QueryPreprocessor._normalize_whitespace` (lines 105-110). -/
def normalizeWhitespace (l : List Char) : List Char :=
  pyStrip (collapseGo false l)

/-- The class `[?!]`. -/
def isQE (c : Char) : Bool := c = '?' || c = '!'

/-- `re.sub(r'[?!]{2,}', '?', text)`: each maximal run of `?`/`!` of length
at least 2 becomes a single `?`.  In skip mode the rest of an
already-replaced run is being consumed. -/
def squashGo : Bool → List Char → List Char
  | _, [] => []
  | true, c :: rest =>
    if isQE c then squashGo true rest else c :: squashGo false rest
  | false, c :: rest =>
    if isQE c then
      if (match rest with | d :: _ => isQE d | [] => false) then
        '?' :: squashGo true rest
      else c :: squashGo false rest
    else c :: squashGo false rest

/-- The class `[.,;:]`. -/
def isPunct2 (c : Char) : Bool := c = '.' || c = ',' || c = ';' || c = ':'

/-- `re.sub(r'\s+[.,;:]+\s*$', '', text)`.  The pattern is anchored at the
end, so at most one match exists: optional trailing whitespace, preceded by
a punctuation block, preceded by at least one whitespace character; the
leftmost match extends the leading whitespace block maximally. -/
def dropTrailingSep (l : List Char) : List Char :=
  let r := l.reverse
  let r1 := r.dropWhile isWSpy
  if isPunct2 (r1.headD ' ') then
    let r2 := r1.dropWhile isPunct2
    if isWSpy (r2.headD 'a') then (r2.dropWhile isWSpy).reverse
    else l
  else l

/-- `QueryPreprocessor._clean_punctuation` (lines 130-146). -/
def cleanPunctuation (l : List Char) : List Char :=
  dropTrailingSep (squashGo false l)

/-- `QueryPreprocessor.preprocess` (lines 66-103): early return on the
empty query, then normalize whitespace, expand abbreviations, clean
punctuation, normalize whitespace again. -/
def preprocess (q : String) : String :=
  if q = "" then q
  else
    String.mk (normalizeWhitespace (cleanPunctuation (expandAbbreviations
      (normalizeWhitespace q.toList))))

/-- Sum of per-sentence token counts; this is the quantity the chunker's
`current_tokens` accumulator tracks (chunker.py lines 81-105). -/
def sumTok (tok : String → ℕ) (l : List String) : ℕ := (l.map tok).sum

/-- The overlap loop of `_semantic_chunk` (chunker.py lines 91-99): walk
the closed chunk from its end, prepending sentences while the running
token total stays within `chunk_overlap`, and stop at the first sentence
that would exceed it.  `acc` holds the seed built so far (in order) and
`t` its token total. -/
def seedGo (tok : String → ℕ) (ov : ℕ) : List String → List String → ℕ → List String
  | [], acc, _ => acc
  | s :: rest, acc, t =>
    if t + tok s ≤ ov then seedGo tok ov rest (s :: acc) (t + tok s) else acc

/-- `overlap_sentences` computed from a closed chunk. -/
def overlapSeed (tok : String → ℕ) (ov : ℕ) (cur : List String) : List String :=
  seedGo tok ov cur.reverse [] 0

/-- The sentence-accumulation loop of `_semantic_chunk` (chunker.py lines
83-109), at the level of sentence lists: when adding the next sentence
would push the running total past `chunk_size` and the current chunk is
non-empty, the current chunk is closed and the next one is seeded with the
overlap sentences; the trailing chunk is closed at the end if non-empty. -/
def semAux (tok : String → ℕ) (size ov : ℕ) : List String → List String → List (List String)
  | [], cur => if cur.isEmpty then [] else [cur]
  | s :: rest, cur =>
    if size < sumTok tok cur + tok s ∧ ¬ cur.isEmpty then
      cur :: semAux tok size ov rest (overlapSeed tok ov cur ++ [s])
    else
      semAux tok size ov rest (cur ++ [s])

/-- `sep.join(parts)`. -/
def joinSep (sep : String) : List String → String
  | [] => ""
  | [a] => a
  | a :: b :: r => a ++ sep ++ joinSep sep (b :: r)

/-- `" ".join(...)` (chunker.py lines 88 and 109). -/
def joinSpace : List String → String := joinSep " "

/-- `"\n\n".join(...)` (chunker.py lines 146 and 164). -/
def joinNN : List String → String := joinSep "\n\n"

/-- The class `[.!?]` of the sentence-split lookbehind. -/
def sentEnd (c : Char) : Bool := c = '.' || c = '!' || c = '?'

/-- `sentEnd` on the optional previous character. -/
def sentEndOpt : Option Char → Bool
  | none => false
  | some c => sentEnd c

/-- `re.split(r'(?<=[.!?])\s+', text)` (chunker.py line 77): the text is
split at every maximal whitespace run whose preceding character is `.`,
`!` or `?`; the run is consumed.  In skip mode the remainder of a
separator run is being consumed; otherwise `p` is the previous character
and `acc` the current sentence reversed. -/
def sentGo : Bool → Option Char → List Char → List Char → List (List Char)
  | _, _, acc, [] => [acc.reverse]
  | true, _, acc, c :: rest =>
    if isWSpy c then sentGo true none acc rest
    else sentGo false (some c) (c :: acc) rest
  | false, p, acc, c :: rest =>
    if isWSpy c && sentEndOpt p then acc.reverse :: sentGo true none [] rest
    else sentGo false (some c) (c :: acc) rest

/-- Sentence splitting on strings. -/
def splitSentences (s : String) : List String :=
  (sentGo false none [] s.toList).map String.mk

/-- `_semantic_chunk` at the level of sentence lists. -/
def semanticChunkSents (tok : String → ℕ) (size ov : ℕ) (sents : List String) :
    List (List String) :=
  semAux tok size ov sents []

/-- `DocumentChunker._semantic_chunk` (chunker.py lines 71-111): split into
sentences, accumulate with overlap, join each chunk with spaces. -/
def semanticChunk (tok : String → ℕ) (size ov : ℕ) (text : String) : List String :=
  (semanticChunkSents tok size ov (splitSentences text)).map joinSpace

/-- Length of the leading whitespace run (the greedy `\s+`). -/
def wsRun (l : List Char) : ℕ := (l.takeWhile isWSpy).length

/-- Match length of `r'\n\n##\s+'` at the head of `l` (chunker.py line 120). -/
def matchHeader : List Char → Option ℕ
  | '\n' :: '\n' :: '#' :: '#' :: rest =>
    if wsRun rest = 0 then none else some (4 + wsRun rest)
  | _ => none

/-- Match length of `r'\n\n\d+\.\s+'` at the head of `l` (line 121). -/
def matchNumbered (l : List Char) : Option ℕ :=
  match l with
  | '\n' :: '\n' :: rest =>
    let d := (rest.takeWhile Char.isDigit).length
    if d = 0 then none
    else
      match rest.drop d with
      | '.' :: rest2 =>
        if wsRun rest2 = 0 then none else some (2 + d + 1 + wsRun rest2)
      | _ => none
  | _ => none

/-- ASCII `[a-z]`. -/
def isLowerAZ (c : Char) : Bool := 'a' ≤ c && c ≤ 'z'

/-- ASCII `[A-Z]`. -/
def isUpperAZ (c : Char) : Bool := 'A' ≤ c && c ≤ 'Z'

/-- Match length of `r'\n\n[A-Z][a-z]+:\s+'` at the head of `l` (line 122). -/
def matchLabel (l : List Char) : Option ℕ :=
  match l with
  | '\n' :: '\n' :: c :: rest =>
    if isUpperAZ c then
      let a := (rest.takeWhile isLowerAZ).length
      if a = 0 then none
      else
        match rest.drop a with
        | ':' :: rest2 =>
          if wsRun rest2 = 0 then none else some (3 + a + 1 + wsRun rest2)
        | _ => none
    else none
  | _ => none

/-- Match length of `r'\n\n-\s+'` at the head of `l` (line 123). -/
def matchBullet : List Char → Option ℕ
  | '\n' :: '\n' :: '-' :: rest =>
    if wsRun rest = 0 then none else some (3 + wsRun rest)
  | _ => none

/-- `re.split(pattern, section)` for the structural marker patterns:
leftmost non-overlapping matches split the text and are consumed.  A
positive skip counter consumes the remaining characters of a match. -/
def splitGo (m : List Char → Option ℕ) : ℕ → List Char → List Char → List (List Char)
  | _, acc, [] => [acc.reverse]
  | k + 1, acc, _ :: rest => splitGo m k acc rest
  | 0, acc, c :: rest =>
    match m (c :: rest) with
    | some n => acc.reverse :: splitGo m (n - 1) [] rest
    | none => splitGo m 0 (c :: acc) rest

/-- Python truthiness of `p.strip()`: the part keeps at least one
non-whitespace character. -/
def stripTruthy (l : List Char) : Bool := l.any (fun c => !(isWSpy c))

/-- One pass of the section-splitting loop (chunker.py lines 128-133):
split every current section on the pattern and keep the parts whose
`strip()` is truthy. -/
def applyPat (m : List Char → Option ℕ) (sections : List (List Char)) : List (List Char) :=
  (sections.map (fun sec => (splitGo m 0 [] sec).filter stripTruthy)).flatten

/-- The section-splitting stage of `_structural_chunk` (chunker.py lines
118-133): the four patterns applied in source order. -/
def splitStructural (text : List Char) : List (List Char) :=
  applyPat matchBullet (applyPat matchLabel (applyPat matchNumbered
    (applyPat matchHeader [text])))

/-- The grouping loop of `_structural_chunk` (chunker.py lines 135-166):
an oversized section closes the current group and is semantically
chunked; otherwise sections accumulate into groups joined by blank lines,
closing a group before it would exceed `chunk_size`. -/
def structAux (tok : String → ℕ) (size ov : ℕ) : List String → List String → List String
  | [], cur => if cur.isEmpty then [] else [joinNN cur]
  | sec :: rest, cur =>
    if size < tok sec then
      (if cur.isEmpty then [] else [joinNN cur]) ++ semanticChunk tok size ov sec ++
        structAux tok size ov rest []
    else if size < sumTok tok cur + tok sec ∧ ¬ cur.isEmpty then
      joinNN cur :: structAux tok size ov rest [sec]
    else
      structAux tok size ov rest (cur ++ [sec])

/-- `DocumentChunker._structural_chunk` (chunker.py lines 113-166). -/
def structuralChunk (tok : String → ℕ) (size ov : ℕ) (text : String) : List String :=
  structAux tok size ov ((splitStructural text.toList).map String.mk) []

/-- Does any of the four structural patterns match at this position? -/
def hasStructAt (l : List Char) : Bool :=
  (matchHeader l).isSome || (matchNumbered l).isSome ||
    (matchLabel l).isSome || (matchBullet l).isSome

/-- `re.search` of the alternation of the four patterns (chunker.py lines
173-176): some position of the text matches one of them. -/
def hasStructure : List Char → Bool
  | [] => false
  | c :: rest => hasStructAt (c :: rest) || hasStructure rest

/-- `DocumentChunker._hybrid_chunk` (chunker.py lines 168-181). -/
def hybridChunk (tok : String → ℕ) (size ov : ℕ) (text : String) : List String :=
  if hasStructure text.toList then structuralChunk tok size ov text
  else semanticChunk tok size ov text

/-- `DocumentChunker.chunk_document` (chunker.py lines 28-69), restricted
to the chunk contents: one chunk dict is built per chunk string, so the
chunk list is in bijection with this list.  Any strategy string other than
`"semantic"` and `"structural"` selects the hybrid strategy (the `else`
branch at line 50). -/
def chunkDocument (tok : String → ℕ) (size ov : ℕ) (content : String)
    (strategy : String) : List String :=
  if strategy = "semantic" then semanticChunk tok size ov content
  else if strategy = "structural" then structuralChunk tok size ov content
  else hybridChunk tok size ov content

/-- A concrete executable tokenizer used to instantiate the abstract
token-count parameter in counterexamples and witnesses: the number of
`x` characters.  It is exactly additive across the chunker's separators,
which contain no `x`. -/
def countX (s : String) : ℕ := s.toList.count 'x'

/-- Specification predicate for whitespace-normalised text: every
whitespace character is a plain space, and no two adjacent characters are
both whitespace. -/
def CleanWS (l : List Char) : Prop :=
  (∀ c ∈ l, isWSpy c → c = ' ') ∧
    List.Chain' (fun a b => ¬ (isWSpy a ∧ isWSpy b)) l

lemma mem_insertDesc {x d : RetrievedDoc} {l : List RetrievedDoc} :
    x ∈ insertDesc d l ↔ x = d ∨ x ∈ l := by
  induction l with
  | nil => simp [insertDesc]
  | cons a as ih =>
    by_cases h : a.score ≤ d.score
    · simp [insertDesc, h]
    · simp only [insertDesc, if_neg h, List.mem_cons, ih]
      tauto

lemma mem_rerankDocuments {x : RetrievedDoc} {l : List RetrievedDoc} :
    x ∈ rerankDocuments l ↔ x ∈ l := by
  induction l with
  | nil => simp [rerankDocuments]
  | cons a as ih => simp [rerankDocuments, mem_insertDesc, ih]

lemma insertDesc_pairwise {d : RetrievedDoc} {l : List RetrievedDoc}
    (h : l.Pairwise (fun a b => b.score ≤ a.score)) :
    (insertDesc d l).Pairwise (fun a b => b.score ≤ a.score) := by
  induction l with
  | nil => simp [insertDesc]
  | cons a as ih =>
    rcases List.pairwise_cons.mp h with ⟨ha, has⟩
    by_cases hc : a.score ≤ d.score
    · rw [insertDesc, if_pos hc]
      refine List.pairwise_cons.mpr ⟨?_, h⟩
      intro y hy
      rcases List.mem_cons.mp hy with rfl | hy
      · exact hc
      · exact le_trans (ha y hy) hc
    · rw [insertDesc, if_neg hc]
      refine List.pairwise_cons.mpr ⟨?_, ih has⟩
      intro y hy
      rcases mem_insertDesc.mp hy with rfl | hy
      · exact le_of_lt (lt_of_not_le hc)
      · exact ha y hy

lemma rerankDocuments_pairwise (l : List RetrievedDoc) :
    (rerankDocuments l).Pairwise (fun a b => b.score ≤ a.score) := by
  induction l with
  | nil => simp [rerankDocuments]
  | cons a as ih => exact insertDesc_pairwise ih

lemma filter_insertDesc (q : ℚ) (d : RetrievedDoc) (l : List RetrievedDoc) :
    (insertDesc d l).filter (fun e => decide (e.score = q)) =
      if d.score = q then d :: l.filter (fun e => decide (e.score = q))
      else l.filter (fun e => decide (e.score = q)) := by
  induction l with
  | nil =>
    by_cases h : d.score = q <;> simp [insertDesc, List.filter, h]
  | cons a as ih =>
    rw [insertDesc]
    by_cases hc : a.score ≤ d.score
    · rw [if_pos hc]
      by_cases h : d.score = q <;> simp [List.filter_cons, h]
    · rw [if_neg hc]
      have hlt : d.score < a.score := lt_of_not_le hc
      by_cases h : d.score = q
      · have haq : ¬ a.score = q := by
          intro hq
          rw [h, hq] at hlt
          exact lt_irrefl q hlt
        simp [List.filter_cons, haq, ih, h]
      · by_cases haq : a.score = q <;> simp [List.filter_cons, haq, ih, h]

lemma filter_rerankDocuments (q : ℚ) (l : List RetrievedDoc) :
    (rerankDocuments l).filter (fun e => decide (e.score = q)) =
      l.filter (fun e => decide (e.score = q)) := by
  induction l with
  | nil => simp [rerankDocuments]
  | cons a as ih =>
    rw [rerankDocuments, filter_insertDesc, List.filter_cons]
    by_cases h : a.score = q <;> simp [h, ih]

lemma processMatches_score_ge {threshold : ℚ} {ms : List PMatch} {d : RetrievedDoc}
    (hd : d ∈ processMatches threshold ms) : threshold ≤ d.score := by
  rcases List.mem_map.mp hd with ⟨m, hm, rfl⟩
  have := List.of_mem_filter hm
  simp only [Bool.not_eq_true', decide_eq_false_iff_not, not_lt] at this
  exact this

/-- C9: every document returned by `retrieve_documents` scores at least
the tier's threshold (matches below it are discarded), and the returned
list is sorted by descending score, stably: documents with a given score
appear in exactly their index-reported relative order. -/
theorem c9_threshold_and_ordering (threshold : ℚ) (ms : List PMatch) :
    (∀ d ∈ retrieveDocumentsPure threshold ms, threshold ≤ d.score) ∧
    (retrieveDocumentsPure threshold ms).Pairwise (fun a b => b.score ≤ a.score) ∧
    (∀ q : ℚ, (retrieveDocumentsPure threshold ms).filter (fun e => decide (e.score = q)) =
      (processMatches threshold ms).filter (fun e => decide (e.score = q))) := by
  refine ⟨?_, rerankDocuments_pairwise _, fun q => filter_rerankDocuments q _⟩
  intro d hd
  exact processMatches_score_ge (mem_rerankDocuments.mp hd)

/-- C10: when an index match carries no metadata (or an empty metadata
dict), the document built by `retrieve_documents` gets title and
organization `"Unknown"`, empty content, and `None` url, category and
last_verified; the score field always equals the match's reported score. -/
theorem c10_metadata_defaults :
    (∀ i sc, toDoc ⟨i, sc, none⟩ = ⟨i, sc, "Unknown", "", "Unknown", none, none, none⟩) ∧
    (∀ i sc, toDoc ⟨i, sc, some emptyMeta⟩ =
      ⟨i, sc, "Unknown", "", "Unknown", none, none, none⟩) ∧
    (∀ m : PMatch, (toDoc m).score = m.score) :=
  ⟨fun _ _ => rfl, fun _ _ => rfl, fun _ => rfl⟩

lemma fallbackTier2_of_ok {c : Bool} {idx : ℕ → Option String → Except RErr (List PMatch)}
    {cat : Option String} {ds : List RetrievedDoc}
    (h : retrieveDocuments c idx ragTier2TopK cat ragTier2Threshold = .ok ds) (hne : ds ≠ []) :
    fallbackTier2 c idx cat = (ds, "tier2") := by
  unfold fallbackTier2
  rw [h]
  simp [List.isEmpty_iff, hne]

lemma fallbackTier2_of_empty {c : Bool} {idx : ℕ → Option String → Except RErr (List PMatch)}
    {cat : Option String}
    (h : retrieveDocuments c idx ragTier2TopK cat ragTier2Threshold = .ok []) :
    fallbackTier2 c idx cat = ([], "no_context") := by
  unfold fallbackTier2
  rw [h]
  rfl

lemma fallbackTier2_of_err {c : Bool} {idx : ℕ → Option String → Except RErr (List PMatch)}
    {cat : Option String} {e : RErr}
    (h : retrieveDocuments c idx ragTier2TopK cat ragTier2Threshold = .error e) :
    fallbackTier2 c idx cat = ([], "no_context") := by
  unfold fallbackTier2
  rw [h]

lemma fallbackTier2_label {c : Bool} {idx : ℕ → Option String → Except RErr (List PMatch)}
    {cat : Option String} :
    (fallbackTier2 c idx cat).2 = "tier2" ∨ (fallbackTier2 c idx cat).2 = "no_context" := by
  unfold fallbackTier2
  rcases retrieveDocuments c idx ragTier2TopK cat ragTier2Threshold with e | ds
  · right; rfl
  · by_cases hemp : ds.isEmpty <;> simp [hemp]

lemma retrieveWithFallback_of_big {c : Bool} {idx : ℕ → Option String → Except RErr (List PMatch)}
    {cat : Option String} {ds : List RetrievedDoc}
    (h : retrieveDocuments c idx ragTier1TopK cat ragTier1Threshold = .ok ds)
    (hlen : 2 ≤ ds.length) : retrieveWithFallback c idx cat = (ds, "tier1") := by
  unfold retrieveWithFallback
  rw [h]
  simp [hlen]

lemma retrieveWithFallback_of_small {c : Bool} {idx : ℕ → Option String → Except RErr (List PMatch)}
    {cat : Option String} {ds : List RetrievedDoc}
    (h : retrieveDocuments c idx ragTier1TopK cat ragTier1Threshold = .ok ds)
    (hlen : ¬ 2 ≤ ds.length) : retrieveWithFallback c idx cat = fallbackTier2 c idx cat := by
  unfold retrieveWithFallback
  rw [h]
  simp [hlen]

lemma retrieveWithFallback_of_err {c : Bool} {idx : ℕ → Option String → Except RErr (List PMatch)}
    {cat : Option String} {e : RErr}
    (h : retrieveDocuments c idx ragTier1TopK cat ragTier1Threshold = .error e) :
    retrieveWithFallback c idx cat = fallbackTier2 c idx cat := by
  unfold retrieveWithFallback
  rw [h]

/-- C1: the two-tier fallback uses the default configuration
(tier 1: top_k 5, threshold 0.65; tier 2: top_k 15, threshold 0.50);
the result is `(docs, "tier1")` iff tier 1 returned at least 2 qualifying
documents, and otherwise (tier 1 short or failed) the result is tier 2's:
`(docs, "tier2")` when tier 2 yields at least one document,
`([], "no_context")` when tier 2 is empty or fails. -/
theorem c1_two_tier_fallback :
    ragTier1TopK = 5 ∧ ragTier1Threshold = mkRat 65 100 ∧
    ragTier2TopK = 15 ∧ ragTier2Threshold = mkRat 50 100 ∧
    ∀ (configured : Bool) (idx : ℕ → Option String → Except RErr (List PMatch))
      (cat : Option String),
      (∀ ds, retrieveDocuments configured idx ragTier1TopK cat ragTier1Threshold = .ok ds →
        2 ≤ ds.length → retrieveWithFallback configured idx cat = (ds, "tier1")) ∧
      ((retrieveWithFallback configured idx cat).2 = "tier1" ↔
        ∃ ds, retrieveDocuments configured idx ragTier1TopK cat ragTier1Threshold = .ok ds ∧
          2 ≤ ds.length) ∧
      ((¬ ∃ ds, retrieveDocuments configured idx ragTier1TopK cat ragTier1Threshold = .ok ds ∧
          2 ≤ ds.length) →
        (∀ ds, retrieveDocuments configured idx ragTier2TopK cat ragTier2Threshold = .ok ds →
          ds ≠ [] → retrieveWithFallback configured idx cat = (ds, "tier2")) ∧
        ((retrieveDocuments configured idx ragTier2TopK cat ragTier2Threshold = .ok [] ∨
          ∃ e, retrieveDocuments configured idx ragTier2TopK cat ragTier2Threshold = .error e) →
          retrieveWithFallback configured idx cat = ([], "no_context"))) := by
  refine ⟨rfl, rfl, rfl, rfl, fun configured idx cat => ?_⟩
  have hfb2 : retrieveWithFallback configured idx cat = fallbackTier2 configured idx cat ∨
      ∃ ds, retrieveDocuments configured idx ragTier1TopK cat ragTier1Threshold = .ok ds ∧
        2 ≤ ds.length := by
    rcases h1 : retrieveDocuments configured idx ragTier1TopK cat ragTier1Threshold with e | ds
    · exact Or.inl (retrieveWithFallback_of_err h1)
    · by_cases hlen : 2 ≤ ds.length
      · exact Or.inr ⟨ds, rfl, hlen⟩
      · exact Or.inl (retrieveWithFallback_of_small h1 hlen)
  refine ⟨fun ds hds hlen => retrieveWithFallback_of_big hds hlen, ?_, ?_⟩
  · constructor
    · intro hlab
      rcases hfb2 with hfb | hok
      · rcases @fallbackTier2_label configured idx cat with h2 | h2 <;>
          rw [hfb, h2] at hlab <;> simp at hlab
      · exact hok
    · rintro ⟨ds, hds, hlen⟩
      rw [retrieveWithFallback_of_big hds hlen]
  · intro hno
    have hfb : retrieveWithFallback configured idx cat = fallbackTier2 configured idx cat := by
      rcases hfb2 with hfb | hok
      · exact hfb
      · exact absurd hok hno
    constructor
    · intro ds hds hne
      rw [hfb, fallbackTier2_of_ok hds hne]
    · rintro (h2 | ⟨e, h2⟩)
      · rw [hfb, fallbackTier2_of_empty h2]
      · rw [hfb, fallbackTier2_of_err h2]

/-- Witness for C1: a configured service whose index returns two matches
scoring 9/10 and 7/10 — both at least the tier-1 threshold — yields those
two documents with the `"tier1"` label. -/
theorem c1_two_tier_fallback_witness :
    retrieveDocuments true (fun _ _ => .ok [⟨"m1", mkRat 9 10, none⟩, ⟨"m2", mkRat 7 10, none⟩])
      ragTier1TopK none ragTier1Threshold =
      .ok [toDoc ⟨"m1", mkRat 9 10, none⟩, toDoc ⟨"m2", mkRat 7 10, none⟩] ∧
    retrieveWithFallback true (fun _ _ => .ok [⟨"m1", mkRat 9 10, none⟩, ⟨"m2", mkRat 7 10, none⟩]) none =
      ([toDoc ⟨"m1", mkRat 9 10, none⟩, toDoc ⟨"m2", mkRat 7 10, none⟩], "tier1") :=
  ⟨by rfl,
    (c1_two_tier_fallback.2.2.2.2 true
        (fun _ _ => .ok [⟨"m1", mkRat 9 10, none⟩, ⟨"m2", mkRat 7 10, none⟩]) none).1
      [toDoc ⟨"m1", mkRat 9 10, none⟩, toDoc ⟨"m2", mkRat 7 10, none⟩] (by rfl) (by decide)⟩

/-- C2: the tiered retrieval always produces a `(documents, tier_label)`
pair with one of the three labels — it is a total function, modelling that
`retrieve_with_fallback` never raises for retrieval-quality reasons — and
whenever both tiers yield zero qualifying documents (an empty qualifying
list or a raised exception), the result is exactly `([], "no_context")`. -/
theorem c2_no_context_guarantee :
    ∀ (configured : Bool) (idx : ℕ → Option String → Except RErr (List PMatch))
      (cat : Option String),
      ((retrieveWithFallback configured idx cat).2 = "tier1" ∨
       (retrieveWithFallback configured idx cat).2 = "tier2" ∨
       (retrieveWithFallback configured idx cat).2 = "no_context") ∧
      ((retrieveDocuments configured idx ragTier1TopK cat ragTier1Threshold = .ok [] ∨
        ∃ e, retrieveDocuments configured idx ragTier1TopK cat ragTier1Threshold = .error e) →
       (retrieveDocuments configured idx ragTier2TopK cat ragTier2Threshold = .ok [] ∨
        ∃ e, retrieveDocuments configured idx ragTier2TopK cat ragTier2Threshold = .error e) →
       retrieveWithFallback configured idx cat = ([], "no_context")) := by
  intro configured idx cat
  constructor
  · rcases h1 : retrieveDocuments configured idx ragTier1TopK cat ragTier1Threshold with e | ds
    · rw [retrieveWithFallback_of_err h1]
      rcases @fallbackTier2_label configured idx cat with h | h <;> simp [h]
    · by_cases hlen : 2 ≤ ds.length
      · rw [retrieveWithFallback_of_big h1 hlen]
        left
        rfl
      · rw [retrieveWithFallback_of_small h1 hlen]
        rcases @fallbackTier2_label configured idx cat with h | h <;> simp [h]
  · intro h1 h2
    have hfb : retrieveWithFallback configured idx cat = fallbackTier2 configured idx cat := by
      rcases h1 with h1 | ⟨e, h1⟩
      · exact retrieveWithFallback_of_small h1 (by simp)
      · exact retrieveWithFallback_of_err h1
    rcases h2 with h2 | ⟨e, h2⟩
    · rw [hfb, fallbackTier2_of_empty h2]
    · rw [hfb, fallbackTier2_of_err h2]

/-- Witness for C2: a configured service whose index returns no matches at
all gives `.ok []` in both tiers and the `([], "no_context")` result. -/
theorem c2_no_context_guarantee_witness :
    retrieveDocuments true (fun _ _ => .ok []) ragTier1TopK none ragTier1Threshold = .ok [] ∧
    retrieveWithFallback true (fun _ _ => .ok []) none = ([], "no_context") :=
  ⟨by rfl,
    (c2_no_context_guarantee true (fun _ _ => .ok []) none).2
      (Or.inl (by rfl)) (Or.inl (by rfl))⟩

/-- C3 (code-bug evidence): when the service is not configured,
`retrieve_documents` does raise the configuration `ValueError` before any
retrieval attempt — but `retrieve_with_fallback` does not let it surface:
its `except Exception` handlers catch the `ValueError` in both tiers
(retrieval_service.py lines 267-268 and 286-288) and the caller receives
`([], "no_context")` instead of the error, contradicting the method's own
docstring (`Raises: ValueError: If Pinecone is not configured`, lines
242-243) and the claim. -/
theorem c3_config_error_swallowed :
    (∀ (idx : ℕ → Option String → Except RErr (List PMatch)) (topK : ℕ)
      (cat : Option String) (minScore : ℚ),
      retrieveDocuments false idx topK cat minScore = .error .configError) ∧
    (∀ (idx : ℕ → Option String → Except RErr (List PMatch)) (cat : Option String),
      retrieveWithFallback false idx cat = ([], "no_context")) :=
  ⟨fun _ _ _ _ => rfl, fun _ _ => rfl⟩

lemma round3_bounds {q : ℚ} (h0 : 0 ≤ q) (h1 : q ≤ 1) : 0 ≤ round3 q ∧ round3 q ≤ 1 := by
  unfold round3
  have hfloor : round (q * 1000) = ⌊q * 1000 + 1 / 2⌋ := round_eq _
  constructor
  · apply div_nonneg _ (by norm_num)
    have hz : (0 : ℤ) ≤ round (q * 1000) := by
      rw [hfloor]
      rw [Int.le_floor]
      push_cast
      linarith
    exact_mod_cast hz
  · rw [div_le_one (by norm_num)]
    have hz : round (q * 1000) ≤ (1000 : ℤ) := by
      rw [hfloor, Int.floor_le_iff]
      push_cast
      linarith
    exact_mod_cast hz

/-- C8: the confidence is 0 on an empty document list; on a non-empty list
with scores in [0, 1] it equals the spec's
`avg_score * 0.6 + coverage * 0.2 + completeness * 0.2`, clamped to [0, 1]
and rounded to three decimals (the code clamps with `min(·, 1.0)` only,
which coincides with the [0, 1] clamp because the value is non-negative);
in every such case `0 ≤ confidence ≤ 1`. -/
theorem c8_confidence_formula :
    ∀ (docs : List RetrievedDoc) (finishReason : String),
      (docs = [] → calculateConfidence docs finishReason = 0) ∧
      ((∀ d ∈ docs, 0 ≤ d.score ∧ d.score ≤ 1) →
        (docs ≠ [] →
          calculateConfidence docs finishReason =
            round3 (max 0 (min
              ((docs.map (fun d => d.score)).sum / (docs.length : ℚ) * (6 / 10) +
                min ((docs.length : ℚ) / 5) 1 * (2 / 10) +
                (if finishReason = "stop" then (1 : ℚ) else 8 / 10) * (2 / 10)) 1))) ∧
        (0 ≤ calculateConfidence docs finishReason ∧
          calculateConfidence docs finishReason ≤ 1)) := by
  intro docs fr
  refine ⟨fun h => by rw [h]; rfl, fun hs => ?_⟩
  by_cases hne : docs = []
  · subst hne
    have h0 : calculateConfidence [] fr = 0 := rfl
    refine ⟨fun h => absurd rfl h, ?_, ?_⟩
    all_goals rw [h0]
    all_goals norm_num
  · have hlen : 0 < (docs.length : ℚ) := by
      have : 0 < docs.length := List.length_pos.mpr hne
      exact_mod_cast this
    set avg : ℚ := (docs.map (fun d => d.score)).sum / (docs.length : ℚ) with havg
    set nf : ℚ := min ((docs.length : ℚ) / 5) 1 with hnf
    set cf : ℚ := if fr = "stop" then (1 : ℚ) else 8 / 10 with hcf
    have havg0 : 0 ≤ avg := by
      apply div_nonneg _ (le_of_lt hlen)
      apply List.sum_nonneg
      intro x hx
      rcases List.mem_map.mp hx with ⟨d, hd, rfl⟩
      exact (hs d hd).1
    have havg1 : avg ≤ 1 := by
      rw [havg, div_le_one hlen]
      have := List.sum_le_card_nsmul (docs.map (fun d => d.score)) 1 ?_
      · simpa using this
      · intro x hx
        rcases List.mem_map.mp hx with ⟨d, hd, rfl⟩
        exact (hs d hd).2
    have hnf0 : 0 ≤ nf := le_min (by positivity) (by norm_num)
    have hnf1 : nf ≤ 1 := min_le_right _ _
    have hcf0 : 0 ≤ cf := by
      rw [hcf]
      split <;> norm_num
    have hcf1 : cf ≤ 1 := by
      rw [hcf]
      split <;> norm_num
    set raw : ℚ := avg * (6 / 10) + nf * (2 / 10) + cf * (2 / 10) with hraw
    have hraw0 : 0 ≤ raw := by
      have h1 := mul_nonneg havg0 (by norm_num : (0:ℚ) ≤ 6 / 10)
      have h2 := mul_nonneg hnf0 (by norm_num : (0:ℚ) ≤ 2 / 10)
      have h3 := mul_nonneg hcf0 (by norm_num : (0:ℚ) ≤ 2 / 10)
      rw [hraw]
      linarith
    have hraw1 : raw ≤ 1 := by
      have h1 := mul_le_mul_of_nonneg_right havg1 (by norm_num : (0:ℚ) ≤ 6 / 10)
      have h2 := mul_le_mul_of_nonneg_right hnf1 (by norm_num : (0:ℚ) ≤ 2 / 10)
      have h3 := mul_le_mul_of_nonneg_right hcf1 (by norm_num : (0:ℚ) ≤ 2 / 10)
      rw [hraw]
      linarith
    have hmin0 : 0 ≤ min raw 1 := le_min hraw0 (by norm_num)
    have hmin1 : min raw 1 ≤ 1 := min_le_right _ _
    have hcalc : calculateConfidence docs fr = round3 (min raw 1) := by
      unfold calculateConfidence
      rw [if_neg (by simp [List.isEmpty_iff, hne])]
    have hclamp : max 0 (min raw 1) = min raw 1 := max_eq_right hmin0
    refine ⟨fun _ => ?_, ?_, ?_⟩
    · rw [hcalc, hclamp]
    · rw [hcalc]
      exact (round3_bounds hmin0 hmin1).1
    · rw [hcalc]
      exact (round3_bounds hmin0 hmin1).2

/-- Witness for C8: a single document with score 1/2 and a normal finish;
the score-bound and non-emptiness hypotheses hold by computation. -/
theorem c8_confidence_formula_witness :
    (∀ d ∈ [(⟨"d", mkRat 1 2, "t", "", "o", none, none, none⟩ : RetrievedDoc)],
      0 ≤ d.score ∧ d.score ≤ 1) ∧
    (0 ≤ calculateConfidence [⟨"d", mkRat 1 2, "t", "", "o", none, none, none⟩] "stop" ∧
      calculateConfidence [⟨"d", mkRat 1 2, "t", "", "o", none, none, none⟩] "stop" ≤ 1) :=
  ⟨by decide,
    ((c8_confidence_formula [⟨"d", mkRat 1 2, "t", "", "o", none, none, none⟩] "stop").2
      (by decide)).2⟩

lemma collapseGo_nil (b : Bool) : collapseGo b [] = [] := by
  cases b <;> rfl

lemma collapseGo_false_cons_ws {c : Char} (hw : isWSpy c) (rest : List Char) :
    collapseGo false (c :: rest) = ' ' :: collapseGo true rest := by
  simp [collapseGo, hw]

lemma collapseGo_true_cons_ws {c : Char} (hw : isWSpy c) (rest : List Char) :
    collapseGo true (c :: rest) = collapseGo true rest := by
  simp [collapseGo, hw]

lemma collapseGo_cons_not_ws (b : Bool) {c : Char} (hw : ¬ isWSpy c) (rest : List Char) :
    collapseGo b (c :: rest) = c :: collapseGo false rest := by
  cases b <;> simp [collapseGo, hw]

lemma CleanWS_nil : CleanWS [] := ⟨by simp, List.chain'_nil⟩

lemma collapseGo_clean (l : List Char) :
    (CleanWS (collapseGo false l) ∧ CleanWS (collapseGo true l)) ∧
      ∀ d ∈ (collapseGo true l).head?, ¬ isWSpy d := by
  induction l with
  | nil =>
    refine ⟨⟨?_, ?_⟩, ?_⟩ <;> rw [collapseGo_nil]
    · exact CleanWS_nil
    · exact CleanWS_nil
    · simp
  | cons c rest ih =>
    obtain ⟨⟨ihf, iht⟩, ihh⟩ := ih
    by_cases hw : isWSpy c
    · refine ⟨⟨?_, ?_⟩, ?_⟩
      · rw [collapseGo_false_cons_ws hw]
        refine ⟨?_, ?_⟩
        · intro x hx hwx
          rcases List.mem_cons.mp hx with rfl | hx2
          · rfl
          · exact iht.1 x hx2 hwx
        · rw [List.chain'_cons']
          refine ⟨?_, iht.2⟩
          intro y hy hcon
          exact ihh y hy hcon.2
      · rw [collapseGo_true_cons_ws hw]
        exact iht
      · rw [collapseGo_true_cons_ws hw]
        exact ihh
    · refine ⟨⟨?_, ?_⟩, ?_⟩
      · rw [collapseGo_cons_not_ws false hw]
        refine ⟨?_, ?_⟩
        · intro x hx hwx
          rcases List.mem_cons.mp hx with rfl | hx2
          · exact absurd hwx hw
          · exact ihf.1 x hx2 hwx
        · rw [List.chain'_cons']
          exact ⟨fun y _ hcon => absurd hcon.1 hw, ihf.2⟩
      · rw [collapseGo_cons_not_ws true hw]
        refine ⟨?_, ?_⟩
        · intro x hx hwx
          rcases List.mem_cons.mp hx with rfl | hx2
          · exact absurd hwx hw
          · exact ihf.1 x hx2 hwx
        · rw [List.chain'_cons']
          exact ⟨fun y _ hcon => absurd hcon.1 hw, ihf.2⟩
      · rw [collapseGo_cons_not_ws true hw]
        intro d hd
        have hdc : c = d := by simpa using hd
        rw [← hdc]
        exact hw

lemma collapseGo_fix (l : List Char) :
    (CleanWS l → collapseGo false l = l) ∧
      (CleanWS l → (∀ d ∈ l.head?, ¬ isWSpy d) → collapseGo true l = l) := by
  induction l with
  | nil => exact ⟨fun _ => collapseGo_nil false, fun _ _ => collapseGo_nil true⟩
  | cons c rest ih =>
    have htail : CleanWS (c :: rest) → CleanWS rest := fun hcl =>
      ⟨fun x hx => hcl.1 x (List.mem_cons_of_mem c hx), (List.chain'_cons'.mp hcl.2).2⟩
    constructor
    · intro hcl
      by_cases hw : isWSpy c
      · have hc : c = ' ' := hcl.1 c (by simp) hw
        rw [collapseGo_false_cons_ws hw]
        have hrest : collapseGo true rest = rest := by
          refine ih.2 (htail hcl) ?_
          intro d hd hwd
          exact (List.chain'_cons'.mp hcl.2).1 d hd ⟨hw, hwd⟩
        rw [hrest, hc]
      · rw [collapseGo_cons_not_ws false hw, ih.1 (htail hcl)]
    · intro hcl hhead
      have hw : ¬ isWSpy c := hhead c (by simp)
      rw [collapseGo_cons_not_ws true hw, ih.1 (htail hcl)]

lemma CleanWS_dropWhile {l : List Char} (h : CleanWS l) :
    CleanWS (l.dropWhile isWSpy) :=
  ⟨fun x hx => h.1 x (List.dropWhile_subset _ hx),
    h.2.suffix (List.dropWhile_suffix _)⟩

lemma CleanWS_reverse {l : List Char} (h : CleanWS l) : CleanWS l.reverse :=
  ⟨fun x hx => h.1 x (List.mem_reverse.mp hx), by
    rw [List.chain'_reverse]
    exact h.2.imp fun a b hab hcon => hab ⟨hcon.2, hcon.1⟩⟩

lemma CleanWS_pyStrip {l : List Char} (h : CleanWS l) : CleanWS (pyStrip l) := by
  unfold pyStrip
  exact CleanWS_reverse (CleanWS_dropWhile (CleanWS_reverse (CleanWS_dropWhile h)))

lemma dropWhile_dropWhile (p : Char → Bool) (l : List Char) :
    List.dropWhile p (List.dropWhile p l) = List.dropWhile p l := by
  cases h : List.dropWhile p l with
  | nil => rfl
  | cons d t =>
    have hd := List.head?_dropWhile_not p l
    rw [h] at hd
    simp at hd
    rw [List.dropWhile_cons, if_neg (by simp [hd])]

lemma dropWhile_eq_self_of_head {l : List Char}
    (h : ∀ d ∈ l.head?, ¬ isWSpy d) : l.dropWhile isWSpy = l := by
  cases l with
  | nil => rfl
  | cons c rest =>
    rw [List.dropWhile_cons, if_neg (by simpa using h c (by simp))]

lemma pyStrip_idem (l : List Char) : pyStrip (pyStrip l) = pyStrip l := by
  unfold pyStrip
  have h1 : ((l.dropWhile isWSpy).reverse.dropWhile isWSpy).reverse.dropWhile isWSpy =
      ((l.dropWhile isWSpy).reverse.dropWhile isWSpy).reverse := by
    apply dropWhile_eq_self_of_head
    intro d hd
    rw [Option.mem_def, List.head?_reverse] at hd
    have hd2 : d ∈ ((l.dropWhile isWSpy).reverse.dropWhile isWSpy).getLast? := hd
    have hd3 : d ∈ (l.dropWhile isWSpy).reverse.getLast? := by
      rcases List.dropWhile_suffix (l := (l.dropWhile isWSpy).reverse) isWSpy with ⟨t, ht⟩
      rw [← ht]
      exact List.mem_getLast?_append_of_mem_getLast? hd2
    rw [Option.mem_def, List.getLast?_reverse] at hd3
    have := List.head?_dropWhile_not isWSpy l
    rw [hd3] at this
    simpa using this
  rw [h1, List.reverse_reverse, dropWhile_dropWhile]

lemma normalizeWhitespace_idem (l : List Char) :
    normalizeWhitespace (normalizeWhitespace l) = normalizeWhitespace l := by
  unfold normalizeWhitespace
  rw [(collapseGo_fix _).1 (CleanWS_pyStrip (collapseGo_clean l).1.1)]
  exact pyStrip_idem _

lemma normalize_preprocess_toList (q : String) :
    normalizeWhitespace (preprocess q).toList = (preprocess q).toList := by
  unfold preprocess
  by_cases hq : q = ""
  · rw [if_pos hq]
    rw [hq]
    rfl
  · rw [if_neg hq]
    have hmk : ∀ A : List Char, (String.mk A).toList = A := fun _ => rfl
    rw [hmk]
    exact normalizeWhitespace_idem _

lemma preprocess_of_stage_fixed (r : String)
    (h1 : normalizeWhitespace r.toList = r.toList)
    (h2 : expandAbbreviations r.toList = r.toList)
    (h3 : cleanPunctuation r.toList = r.toList) : preprocess r = r := by
  by_cases hr : r = ""
  · rw [hr]
    rfl
  · unfold preprocess
    rw [if_neg hr, h1, h2, h3, h1]
    cases r
    rfl

/-- C7 counterexample: `preprocess` is not idempotent.  On `"a . ."` the
trailing-separator substitution `\s+[.,;:]+\s*$` removes only the last
`" ."` (the pattern cannot span the inner dot), leaving `"a ."`, which a
second pass reduces to `"a"`. -/
theorem c7_counterexample :
    preprocess "a . ." = "a ." ∧
    preprocess (preprocess "a . .") = "a" ∧
    preprocess (preprocess "a . .") ≠ preprocess "a . ." := by
  exact ⟨by decide, by decide, by decide⟩

/-- C7 (amended): normalization is idempotent on every query whose
preprocessed form is fixed by abbreviation expansion and by punctuation
cleanup (whitespace normalization always fixes a preprocessed query: it is
idempotent, proved unconditionally in `normalizeWhitespace_idem`).  The
unrestricted claim fails: punctuation cleanup can expose a new trailing
separator group (see the counterexample `"a . ."`). -/
theorem c7_idempotent_on_stage_fixed :
    ∀ q : String,
      expandAbbreviations (preprocess q).toList = (preprocess q).toList →
      cleanPunctuation (preprocess q).toList = (preprocess q).toList →
      preprocess (preprocess q) = preprocess q :=
  fun q h2 h3 =>
    preprocess_of_stage_fixed (preprocess q) (normalize_preprocess_toList q) h2 h3

/-- Witness for C7: the already-normal query `"dokument"` is fixed by the
expansion and cleanup stages, and `preprocess` is idempotent at it. -/
theorem c7_idempotent_on_stage_fixed_witness :
    preprocess (preprocess "dokument") = preprocess "dokument" :=
  c7_idempotent_on_stage_fixed "dokument" (by decide) (by decide)

/-- C6 (amended): a document with empty content yields zero chunks only
under the structural strategy; the semantic strategy — and the hybrid
strategy, which falls back to semantic because the empty text has no
structural markers — yields exactly one chunk whose content is the empty
string (`re.split` returns `[""]` on the empty string, and the final
`if current_chunk` check sees the non-empty list `[""]`). -/
theorem c6_empty_content :
    ∀ (tok : String → ℕ) (size ov : ℕ) (strategy : String),
      chunkDocument tok size ov "" strategy =
        if strategy = "structural" then [] else [""] := by
  intro tok size ov strategy
  have hsem : semanticChunk tok size ov "" = [""] := by
    unfold semanticChunk semanticChunkSents
    rw [show splitSentences "" = [""] from rfl]
    simp [semAux, joinSpace, joinSep]
  have hstruct : structuralChunk tok size ov "" = [] := by
    unfold structuralChunk
    rw [show splitStructural "".toList = [] from rfl]
    rfl
  have hhyb : hybridChunk tok size ov "" = [""] := by
    unfold hybridChunk
    rw [if_neg (by decide : ¬ hasStructure "".toList = true)]
    exact hsem
  unfold chunkDocument
  by_cases h1 : strategy = "semantic"
  · rw [if_pos h1, hsem, if_neg (by rw [h1]; decide)]
  · rw [if_neg h1]
    by_cases h2 : strategy = "structural"
    · rw [if_pos h2, hstruct, if_pos h2]
    · rw [if_neg h2, hhyb, if_neg h2]

/-- C6 counterexample: with the default configuration (chunk_size 600,
overlap 100), semantic chunking of a document with empty content returns
one chunk (with empty content), not zero chunks. -/
theorem c6_counterexample :
    chunkDocument countX 600 100 "" "semantic" = [""] ∧
    chunkDocument countX 600 100 "" "semantic" ≠ [] :=
  ⟨by decide, by decide⟩

lemma sumTok_nil (tok : String → ℕ) : sumTok tok [] = 0 := rfl

lemma sumTok_cons (tok : String → ℕ) (s : String) (l : List String) :
    sumTok tok (s :: l) = tok s + sumTok tok l := by
  simp [sumTok]

lemma sumTok_append (tok : String → ℕ) (l1 l2 : List String) :
    sumTok tok (l1 ++ l2) = sumTok tok l1 + sumTok tok l2 := by
  simp [sumTok]

lemma seedGo_extends (tok : String → ℕ) (ov : ℕ) :
    ∀ (l acc : List String) (t : ℕ), ∃ f, seedGo tok ov l acc t = f ++ acc := by
  intro l
  induction l with
  | nil => exact fun acc t => ⟨[], rfl⟩
  | cons s rest ih =>
    intro acc t
    by_cases h : t + tok s ≤ ov
    · rw [seedGo, if_pos h]
      rcases ih (s :: acc) (t + tok s) with ⟨f, hf⟩
      exact ⟨f ++ [s], by rw [hf]; simp⟩
    · rw [seedGo, if_neg h]
      exact ⟨[], rfl⟩

lemma getLast_mem_overlapSeed (tok : String → ℕ) (ov : ℕ) {cur : List String} {s : String}
    (hlast : cur.getLast? = some s) (hs : tok s ≤ ov) :
    s ∈ overlapSeed tok ov cur := by
  rcases hrev : cur.reverse with _ | ⟨a, rest⟩
  · have hnil : cur = [] := by simpa using congrArg List.reverse hrev
    rw [hnil] at hlast
    simp at hlast
  · have hcur : cur = rest.reverse ++ [a] := by
      have := congrArg List.reverse hrev
      simpa using this
    rw [hcur, List.getLast?_concat] at hlast
    obtain rfl : a = s := by simpa using hlast
    unfold overlapSeed
    rw [hrev]
    simp only [seedGo]
    rw [if_pos (by simpa using hs)]
    rcases seedGo_extends tok ov rest [a] (0 + tok a) with ⟨f, hf⟩
    rw [hf]
    simp

lemma semAux_head_extends (tok : String → ℕ) (size ov : ℕ) :
    ∀ (sents cur c : List String) (cs : List (List String)),
      semAux tok size ov sents cur = c :: cs → ∃ ext, c = cur ++ ext := by
  intro sents
  induction sents with
  | nil =>
    intro cur c cs h
    rw [semAux] at h
    by_cases hemp : cur.isEmpty
    · rw [if_pos hemp] at h
      exact absurd h (by simp)
    · rw [if_neg hemp] at h
      injection h with h1 h2
      exact ⟨[], by rw [← h1]; simp⟩
  | cons s rest ih =>
    intro cur c cs h
    rw [semAux] at h
    by_cases hc : size < sumTok tok cur + tok s ∧ ¬ cur.isEmpty
    · rw [if_pos hc] at h
      injection h with h1 h2
      exact ⟨[], by rw [← h1]; simp⟩
    · rw [if_neg hc] at h
      rcases ih (cur ++ [s]) c cs h with ⟨ext, hext⟩
      exact ⟨[s] ++ ext, by rw [hext]; simp⟩

lemma semAux_chain (tok : String → ℕ) (size ov : ℕ) :
    ∀ (sents cur : List String),
      List.Chain' (fun a b => ∃ ext, b = overlapSeed tok ov a ++ ext)
        (semAux tok size ov sents cur) := by
  intro sents
  induction sents with
  | nil =>
    intro cur
    rw [semAux]
    by_cases hemp : cur.isEmpty
    · rw [if_pos hemp]
      exact List.chain'_nil
    · rw [if_neg hemp]
      exact List.chain'_singleton _
  | cons s rest ih =>
    intro cur
    rw [semAux]
    by_cases hc : size < sumTok tok cur + tok s ∧ ¬ cur.isEmpty
    · rw [if_pos hc]
      rcases hrec : semAux tok size ov rest (overlapSeed tok ov cur ++ [s]) with _ | ⟨c, cs⟩
      · simp
      · rw [List.chain'_cons]
        constructor
        · rcases semAux_head_extends tok size ov rest _ c cs hrec with ⟨ext, hext⟩
          exact ⟨[s] ++ ext, by rw [hext]; simp⟩
        · rw [← hrec]
          exact ih _
    · rw [if_neg hc]
      exact ih _

lemma chain'_of_consecutive {α : Type} {R : α → α → Prop} :
    ∀ {l : List α}, List.Chain' R l → ∀ (i : ℕ) {a b : α},
      l[i]? = some a → l[i + 1]? = some b → R a b := by
  intro l
  induction l with
  | nil =>
    intro _ i a b ha _
    simp at ha
  | cons x xs ih =>
    intro h i a b ha hb
    cases i with
    | zero =>
      obtain rfl : x = a := by simpa using ha
      cases xs with
      | nil => simp at hb
      | cons y ys =>
        obtain rfl : y = b := by simpa using hb
        exact (List.chain'_cons.mp h).1
    | succ j =>
      have ha2 : xs[j]? = some a := by simpa using ha
      have hb2 : xs[j + 1]? = some b := by simpa using hb
      exact ih h.tail j ha2 hb2

/-- C5 (amended): in semantic chunking, consecutive chunks share a
sentence whenever the trailing sentence of the earlier chunk fits within
`chunk_overlap` (its token count is at most `chunk_overlap`): that
sentence is carried into the next chunk's overlap seed.  The unamended
claim — which excepts only single oversized-sentence chunks — fails: the
overlap seed is empty exactly when the trailing sentence alone exceeds
`chunk_overlap`, which can happen for well-sized multi-sentence chunks
(see the counterexample). -/
theorem c5_overlap_continuity :
    ∀ (tok : String → ℕ) (size ov : ℕ) (sents : List String) (i : ℕ)
      (c₁ c₂ : List String) (s : String),
      (semanticChunkSents tok size ov sents)[i]? = some c₁ →
      (semanticChunkSents tok size ov sents)[i + 1]? = some c₂ →
      c₁.getLast? = some s →
      tok s ≤ ov →
      s ∈ c₁ ∧ s ∈ c₂ := by
  intro tok size ov sents i c₁ c₂ s h1 h2 hlast hs
  have hchain : List.Chain' (fun a b => ∃ ext, b = overlapSeed tok ov a ++ ext)
      (semanticChunkSents tok size ov sents) := semAux_chain tok size ov sents []
  rcases chain'_of_consecutive hchain i h1 h2 with ⟨ext, hext⟩
  have hmem : s ∈ c₁ := by
    rcases List.mem_getLast?_eq_getLast (by rw [Option.mem_def]; exact hlast) with ⟨hne, heq⟩
    rw [heq]
    exact List.getLast_mem hne
  refine ⟨hmem, ?_⟩
  rw [hext]
  exact List.mem_append_left _ (getLast_mem_overlapSeed tok ov hlast hs)

/-- Witness for C5 (amended): sentences `"xxx."` (3 tokens) and
`"xxxxxxx."` (7 tokens) with chunk_size 8 and overlap 4 produce chunks
`[["xxx."], ["xxx.", "xxxxxxx."]]`; the trailing sentence `"xxx."` of the
first chunk fits in the overlap and is shared with the second chunk. -/
theorem c5_overlap_continuity_witness :
    "xxx." ∈ (["xxx."] : List String) ∧ "xxx." ∈ (["xxx.", "xxxxxxx."] : List String) :=
  c5_overlap_continuity countX 8 4 ["xxx.", "xxxxxxx."] 0 ["xxx."] ["xxx.", "xxxxxxx."]
    "xxx." (by decide) (by decide) (by decide) (by decide)

/-- C5 counterexample: with chunk_size 8 and overlap 1 (> 0), the text
`"xxxx. xxx. xxx"` (token counts 4, 3, 3) chunks into
`["xxxx. xxx.", "xxx"]`: two chunks, no shared sentence, and the first
chunk is neither a single sentence nor oversized — its trailing sentence
(3 tokens) merely exceeds the 1-token overlap budget, so the seed is
empty. -/
theorem c5_counterexample :
    splitSentences "xxxx. xxx. xxx" = ["xxxx.", "xxx.", "xxx"] ∧
    semanticChunkSents countX 8 1 ["xxxx.", "xxx.", "xxx"] =
      [["xxxx.", "xxx."], ["xxx"]] ∧
    semanticChunk countX 8 1 "xxxx. xxx. xxx" = ["xxxx. xxx.", "xxx"] ∧
    (¬ ∃ s, s ∈ (["xxxx.", "xxx."] : List String) ∧ s ∈ (["xxx"] : List String)) ∧
    ¬ ((["xxxx.", "xxx."] : List String).length = 1 ∧
        8 < countX (joinSpace ["xxxx.", "xxx."])) := by
  refine ⟨by decide, by decide, by decide, by decide, by decide⟩

lemma seedGo_sum (tok : String → ℕ) (ov : ℕ) :
    ∀ (l acc : List String) (t : ℕ), sumTok tok acc = t → t ≤ ov →
      sumTok tok (seedGo tok ov l acc t) ≤ ov := by
  intro l
  induction l with
  | nil =>
    intro acc t hacc hle
    simp only [seedGo]
    rw [hacc]
    exact hle
  | cons s rest ih =>
    intro acc t hacc hle
    simp only [seedGo]
    by_cases h : t + tok s ≤ ov
    · rw [if_pos h]
      refine ih (s :: acc) (t + tok s) ?_ h
      rw [sumTok_cons, hacc]
      omega
    · rw [if_neg h]
      rw [hacc]
      exact hle

lemma overlapSeed_sum (tok : String → ℕ) (ov : ℕ) (cur : List String) :
    sumTok tok (overlapSeed tok ov cur) ≤ ov :=
  seedGo_sum tok ov cur.reverse [] 0 rfl (Nat.zero_le ov)

lemma semAux_shape (tok : String → ℕ) (size ov : ℕ) :
    ∀ (sents cur : List String),
      (cur = [] ∨ sumTok tok cur ≤ size ∨
        ∃ pre s, cur = pre ++ [s] ∧ sumTok tok pre ≤ ov) →
      ∀ c ∈ semAux tok size ov sents cur,
        c ≠ [] ∧ (sumTok tok c ≤ size ∨
          ∃ pre s, c = pre ++ [s] ∧ sumTok tok pre ≤ ov) := by
  intro sents
  induction sents with
  | nil =>
    intro cur hcur c hc
    rw [semAux] at hc
    by_cases hemp : cur.isEmpty
    · rw [if_pos hemp] at hc
      simp at hc
    · rw [if_neg hemp] at hc
      obtain rfl : c = cur := by simpa using hc
      have hne : c ≠ [] := by simpa [List.isEmpty_iff] using hemp
      rcases hcur with h | h | h
      · exact absurd h hne
      · exact ⟨hne, Or.inl h⟩
      · exact ⟨hne, Or.inr h⟩
  | cons s rest ih =>
    intro cur hcur c hc
    rw [semAux] at hc
    by_cases hif : size < sumTok tok cur + tok s ∧ ¬ cur.isEmpty
    · rw [if_pos hif] at hc
      rcases List.mem_cons.mp hc with rfl | hc2
      · have hne : c ≠ [] := by simpa [List.isEmpty_iff] using hif.2
        rcases hcur with h | h | h
        · exact absurd h hne
        · exact ⟨hne, Or.inl h⟩
        · exact ⟨hne, Or.inr h⟩
      · refine ih (overlapSeed tok ov cur ++ [s]) ?_ c hc2
        exact Or.inr (Or.inr ⟨overlapSeed tok ov cur, s, rfl, overlapSeed_sum tok ov cur⟩)
    · rw [if_neg hif] at hc
      refine ih (cur ++ [s]) ?_ c hc
      by_cases hemp : cur.isEmpty
      · have : cur = [] := List.isEmpty_iff.mp hemp
        subst this
        exact Or.inr (Or.inr ⟨[], s, by simp, by simp [sumTok]⟩)
      · push_neg at hif
        have hsum : sumTok tok cur + tok s ≤ size := by
          by_contra hgt
          exact hemp (hif (lt_of_not_le hgt))
        refine Or.inr (Or.inl ?_)
        rw [sumTok_append]
        simpa [sumTok] using hsum

lemma joinSep_tok_le (tok : String → ℕ) (sep : String)
    (hsub : ∀ a b, tok (a ++ sep ++ b) ≤ tok a + tok b) :
    ∀ l : List String, l ≠ [] → tok (joinSep sep l) ≤ sumTok tok l
  | [], h => absurd rfl h
  | [a], _ => by
    simp [joinSep, sumTok]
  | a :: b :: r, _ => by
    have hrec := joinSep_tok_le tok sep hsub (b :: r) (by simp)
    have h1 := hsub a (joinSep sep (b :: r))
    rw [sumTok_cons]
    calc tok (joinSep sep (a :: b :: r)) = tok (a ++ sep ++ joinSep sep (b :: r)) := rfl
      _ ≤ tok a + tok (joinSep sep (b :: r)) := h1
      _ ≤ tok a + sumTok tok (b :: r) := Nat.add_le_add_left hrec _

lemma semanticChunk_bound (tok : String → ℕ) (size ov : ℕ)
    (hsub : ∀ a b, tok (a ++ " " ++ b) ≤ tok a + tok b) (text : String) :
    ∀ c ∈ semanticChunk tok size ov text,
      tok c ≤ size ∨
      ∃ cs, cs ∈ semanticChunkSents tok size ov (splitSentences text) ∧
        c = joinSpace cs ∧ sumTok tok cs.dropLast ≤ ov := by
  intro c hc
  unfold semanticChunk at hc
  rcases List.mem_map.mp hc with ⟨cs, hcs, rfl⟩
  have hcs2 : cs ∈ semAux tok size ov (splitSentences text) [] := hcs
  rcases semAux_shape tok size ov (splitSentences text) [] (Or.inl rfl) cs hcs2 with
    ⟨hne, hsum | ⟨pre, s, heq, hpre⟩⟩
  · left
    calc tok (joinSpace cs) ≤ sumTok tok cs := joinSep_tok_le tok " " hsub cs hne
      _ ≤ size := hsum
  · refine Or.inr ⟨cs, hcs, rfl, ?_⟩
    rw [heq]
    simpa using hpre

lemma structAux_bound (tok : String → ℕ) (size ov : ℕ)
    (hsub : ∀ a b, tok (a ++ " " ++ b) ≤ tok a + tok b)
    (hsubN : ∀ a b, tok (a ++ "\n\n" ++ b) ≤ tok a + tok b) :
    ∀ (sections cur : List String),
      (cur = [] ∨ sumTok tok cur ≤ size) →
      ∀ c ∈ structAux tok size ov sections cur,
        tok c ≤ size ∨
        ∃ t, t ∈ sections ∧ size < tok t ∧
          ∃ cs, cs ∈ semanticChunkSents tok size ov (splitSentences t) ∧
            c = joinSpace cs ∧ sumTok tok cs.dropLast ≤ ov := by
  intro sections
  induction sections with
  | nil =>
    intro cur hcur c hc
    rw [structAux] at hc
    by_cases hemp : cur.isEmpty
    · rw [if_pos hemp] at hc
      simp at hc
    · rw [if_neg hemp] at hc
      obtain rfl : c = joinNN cur := by simpa using hc
      have hne : cur ≠ [] := by simpa [List.isEmpty_iff] using hemp
      rcases hcur with h | h
      · exact absurd h hne
      · exact Or.inl (le_trans (joinSep_tok_le tok "\n\n" hsubN cur hne) h)
  | cons sec rest ih =>
    intro cur hcur c hc
    rw [structAux] at hc
    by_cases hbig : size < tok sec
    · rw [if_pos hbig] at hc
      rcases List.mem_append.mp hc with hc01 | hc2
      · rcases List.mem_append.mp hc01 with hc0 | hcsem
        · by_cases hemp : cur.isEmpty
          · rw [if_pos hemp] at hc0
            simp at hc0
          · rw [if_neg hemp] at hc0
            obtain rfl : c = joinNN cur := by simpa using hc0
            have hne : cur ≠ [] := by simpa [List.isEmpty_iff] using hemp
            rcases hcur with h | h
            · exact absurd h hne
            · exact Or.inl (le_trans (joinSep_tok_le tok "\n\n" hsubN cur hne) h)
        · rcases semanticChunk_bound tok size ov hsub sec c hcsem with h | ⟨cs, hcs, hceq, hcd⟩
          · exact Or.inl h
          · exact Or.inr ⟨sec, List.mem_cons_self sec rest, hbig, cs, hcs, hceq, hcd⟩
      · rcases ih [] (Or.inl rfl) c hc2 with h | ⟨t, ht, hbig2, hex⟩
        · exact Or.inl h
        · exact Or.inr ⟨t, List.mem_cons_of_mem sec ht, hbig2, hex⟩
    · rw [if_neg hbig] at hc
      by_cases hover : size < sumTok tok cur + tok sec ∧ ¬ cur.isEmpty
      · rw [if_pos hover] at hc
        rcases List.mem_cons.mp hc with rfl | hc2
        · have hne : cur ≠ [] := by simpa [List.isEmpty_iff] using hover.2
          rcases hcur with h | h
          · exact absurd h hne
          · exact Or.inl (le_trans (joinSep_tok_le tok "\n\n" hsubN cur hne) h)
        · have hrec := ih [sec] (Or.inr (by simpa [sumTok] using le_of_not_lt hbig)) c hc2
          rcases hrec with h | ⟨t, ht, hbig2, hex⟩
          · exact Or.inl h
          · exact Or.inr ⟨t, List.mem_cons_of_mem sec ht, hbig2, hex⟩
      · rw [if_neg hover] at hc
        have hinv : sumTok tok (cur ++ [sec]) ≤ size := by
          rcases hcur with rfl | hsum
          · simpa [sumTok] using le_of_not_lt hbig
          · by_cases hemp : cur.isEmpty
            · have : cur = [] := List.isEmpty_iff.mp hemp
              subst this
              simpa [sumTok] using le_of_not_lt hbig
            · push_neg at hover
              have hle : sumTok tok cur + tok sec ≤ size := by
                by_contra hgt
                exact hemp (hover (lt_of_not_le hgt))
              rw [sumTok_append]
              simpa [sumTok] using hle
        rcases ih (cur ++ [sec]) (Or.inr hinv) c hc with h | ⟨t, ht, hbig2, hex⟩
        · exact Or.inl h
        · exact Or.inr ⟨t, List.mem_cons_of_mem sec ht, hbig2, hex⟩

lemma countX_subadd_space (a b : String) : countX (a ++ " " ++ b) ≤ countX a + countX b := by
  simp [countX, String.toList, String.data_append, List.count_append]

lemma countX_subadd_nn (a b : String) : countX (a ++ "\n\n" ++ b) ≤ countX a + countX b := by
  simp [countX, String.toList, String.data_append, List.count_append]

/-- C4 (amended): the chunker's actual size discipline, stated on the
chunker's own sentence decomposition.  First part (sentence level): every
sentence-chunk `cs` built by semantic chunking is non-empty, and either
its token total is within `chunk_size` or all of its sentences except the
last together fit within `chunk_overlap` — that is, the chunk is an
overlap seed followed by exactly one sentence.  Second part: for a
tokenizer subadditive across the joining separators, every chunk string
produced by `chunk_document` under any strategy is within `chunk_size`,
or is the space-join of such an exceptional sentence-chunk, computed by
semantic chunking from the document itself or from one of the document's
structural sections whose token count exceeds `chunk_size`.  The
unamended claim — excepting only single oversized sentences — fails:
a single oversized sentence is the case `cs.dropLast = []`, but a chunk
with a non-empty seed plus one sentence can also exceed `chunk_size`
(see the counterexample). -/
theorem c4_chunk_size_bound :
    ∀ (tok : String → ℕ) (size ov : ℕ),
      (∀ sents : List String, ∀ cs ∈ semanticChunkSents tok size ov sents,
        cs ≠ [] ∧ (sumTok tok cs ≤ size ∨ sumTok tok cs.dropLast ≤ ov)) ∧
      ∀ content strategy : String,
        (∀ a b, tok (a ++ " " ++ b) ≤ tok a + tok b) →
        (∀ a b, tok (a ++ "\n\n" ++ b) ≤ tok a + tok b) →
        ∀ c ∈ chunkDocument tok size ov content strategy,
          tok c ≤ size ∨
          ∃ t cs,
            (t = content ∨
              t ∈ (splitStructural content.toList).map String.mk ∧ size < tok t) ∧
            cs ∈ semanticChunkSents tok size ov (splitSentences t) ∧
            c = joinSpace cs ∧ sumTok tok cs.dropLast ≤ ov := by
  intro tok size ov
  constructor
  · intro sents cs hcs
    have hcs2 : cs ∈ semAux tok size ov sents [] := hcs
    rcases semAux_shape tok size ov sents [] (Or.inl rfl) cs hcs2 with
      ⟨hne, hsum | ⟨pre, s, heq, hpre⟩⟩
    · exact ⟨hne, Or.inl hsum⟩
    · refine ⟨hne, Or.inr ?_⟩
      rw [heq]
      simpa using hpre
  · intro content strategy hsub hsubN c hc
    unfold chunkDocument at hc
    by_cases h1 : strategy = "semantic"
    · rw [if_pos h1] at hc
      rcases semanticChunk_bound tok size ov hsub content c hc with h | ⟨cs, hcs, hceq, hcd⟩
      · exact Or.inl h
      · exact Or.inr ⟨content, cs, Or.inl rfl, hcs, hceq, hcd⟩
    · rw [if_neg h1] at hc
      by_cases h2 : strategy = "structural"
      · rw [if_pos h2] at hc
        unfold structuralChunk at hc
        rcases structAux_bound tok size ov hsub hsubN _ [] (Or.inl rfl) c hc with
          h | ⟨t, ht, hbig, cs, hcs, hceq, hcd⟩
        · exact Or.inl h
        · exact Or.inr ⟨t, cs, Or.inr ⟨ht, hbig⟩, hcs, hceq, hcd⟩
      · rw [if_neg h2] at hc
        unfold hybridChunk at hc
        by_cases h3 : hasStructure content.toList
        · rw [if_pos h3] at hc
          unfold structuralChunk at hc
          rcases structAux_bound tok size ov hsub hsubN _ [] (Or.inl rfl) c hc with
            h | ⟨t, ht, hbig, cs, hcs, hceq, hcd⟩
          · exact Or.inl h
          · exact Or.inr ⟨t, cs, Or.inr ⟨ht, hbig⟩, hcs, hceq, hcd⟩
        · rw [if_neg h3] at hc
          rcases semanticChunk_bound tok size ov hsub content c hc with
            h | ⟨cs, hcs, hceq, hcd⟩
          · exact Or.inl h
          · exact Or.inr ⟨content, cs, Or.inl rfl, hcs, hceq, hcd⟩

/-- Witness for C4 (amended), instantiated with the exactly-additive
tokenizer `countX`, chunk_size 8, overlap 4 and a concrete text whose
over-budget second chunk is an overlap seed plus one sentence of the
chunker's actual sentence decomposition. -/
theorem c4_chunk_size_bound_witness :
    countX "xxx. xxxxxxx." ≤ 8 ∨
      ∃ t cs,
        (t = "xxx. xxxxxxx." ∨
          t ∈ (splitStructural ("xxx. xxxxxxx." : String).toList).map String.mk ∧
            8 < countX t) ∧
        cs ∈ semanticChunkSents countX 8 4 (splitSentences t) ∧
        "xxx. xxxxxxx." = joinSpace cs ∧ sumTok countX cs.dropLast ≤ 4 :=
  (c4_chunk_size_bound countX 8 4).2 "xxx. xxxxxxx." "semantic"
    countX_subadd_space countX_subadd_nn "xxx. xxxxxxx." (by decide)

/-- C4 counterexample: with chunk_size 8 and overlap 4, the text
`"xxx. xxxxxxx."` (sentence token counts 3 and 7 under `countX`) produces
the chunk `"xxx. xxxxxxx."` of 10 tokens — over the budget — which
consists of two sentences, each individually within the budget, so the
only exception the claim allows (a single oversized sentence) does not
apply. -/
theorem c4_counterexample :
    splitSentences "xxx. xxxxxxx." = ["xxx.", "xxxxxxx."] ∧
    chunkDocument countX 8 4 "xxx. xxxxxxx." "semantic" = ["xxx.", "xxx. xxxxxxx."] ∧
    semanticChunkSents countX 8 4 ["xxx.", "xxxxxxx."] =
      [["xxx."], ["xxx.", "xxxxxxx."]] ∧
    countX "xxx. xxxxxxx." = 10 ∧
    ¬ (countX "xxx. xxxxxxx." ≤ 8) ∧
    (["xxx.", "xxxxxxx."] : List String).length ≠ 1 ∧
    countX "xxx." ≤ 8 ∧ countX "xxxxxxx." ≤ 8 := by
  refine ⟨by decide, by decide, by decide, by decide, by decide, by decide, by decide,
    by decide⟩
